import Mathlib

/-!
Verification of the file extractor and project packaging of `src/server/routes.ts`.

The server component under verification is the pair of functions
`parseFilesFromResponse` / `detectLanguage` (routes.ts, lines 1088-1150)
together with the `/api/download-project` handler (lines 1049-1079).

`parseFilesFromResponse` scans a response text with two JavaScript regexes:

  primary:  FILE:\s*([^\n]+)\n(three backticks)(\w*)\n([\s\S]*?)(three backticks)   (global)
  fallback: (?:#{2,3}|####)\s*(optional backtick)([^(backtick)\n]+)(optional backtick)\n
            (three backticks)(\w*)\n([\s\S]*?)(three backticks)                      (global)

run with `exec` in a loop; the fallback loop runs only when the primary loop
pushed no record.  The embedding below implements each regex as an explicit
character-level matcher with the exact backtracking order of the JavaScript
engine (leftmost match, greedy `\s*`, `[^\n]+`, `\w*` with give-back, lazy
`[\s\S]*?`), and the `exec` loop as a scanner that restarts after the end of
every match and advances one character after every failed position.
-/

/-- The backtick character (code 96), written via `Char.ofNat`. -/
def btk : Char := Char.ofNat 96

/-- JavaScript `\s` (also the character class trimmed by `String.prototype.trim`):
tab through carriage return, space, NBSP, and the Unicode space separators. -/
def isWs (c : Char) : Bool :=
  (9 ≤ c.toNat && c.toNat ≤ 13) || c.toNat = 32 || c.toNat = 0xa0 || c.toNat = 0x1680 ||
  (0x2000 ≤ c.toNat && c.toNat ≤ 0x200a) || c.toNat = 0x2028 || c.toNat = 0x2029 ||
  c.toNat = 0x202f || c.toNat = 0x205f || c.toNat = 0x3000 || c.toNat = 0xfeff

/-- JavaScript `\w`: ASCII letters, digits and underscore. -/
def isWord (c : Char) : Bool :=
  ('a' ≤ c && c ≤ 'z') || ('A' ≤ c && c ≤ 'Z') || ('0' ≤ c && c ≤ '9') || c = '_'

/-- JavaScript `String.prototype.trim` on a character list: drop whitespace
from both ends. -/
def jsTrim (l : List Char) : List Char :=
  ((l.dropWhile isWs).reverse.dropWhile isWs).reverse

/-- A record produced by `parseFilesFromResponse`:
`{ path, content, language }`. -/
structure FileRec where
  path : String
  content : String
  language : String
deriving DecidableEq, Repr

/-- Does the list contain three consecutive backticks anywhere? -/
def hasTriple : List Char → Bool
  | [] => false
  | c :: rest => if c = btk ∧ rest.take 2 = [btk, btk] then true else hasTriple rest

/-- The lazy body match `([\s\S]*?)` followed by three literal backticks:
split the input at the first occurrence of three consecutive backticks,
returning the text before it and the text after it. -/
def untilFence : List Char → Option (List Char × List Char)
  | [] => none
  | c :: rest =>
    if c = btk ∧ rest.take 2 = [btk, btk] then some ([], rest.drop 2)
    else (untilFence rest).map fun ab => (c :: ab.1, ab.2)

/-- The common fence part of both regexes: three backticks, a greedy `(\w*)`
language tag, a newline, then the lazy body up to the closing three backticks.
Returns `(language, raw body, rest of input)`. -/
def matchFence (cs : List Char) : Option (List Char × List Char × List Char) :=
  if cs.take 3 = [btk, btk, btk] then
    let cs1 := cs.drop 3
    let lang := cs1.takeWhile isWord
    let cs2 := cs1.dropWhile isWord
    if cs2.take 1 = ['\n'] then (untilFence (cs2.drop 1)).map fun ab => (lang, ab.1, ab.2)
    else none
  else none

/-- `([^\n]+)\n` followed by the fence part.  The greedy `[^\n]+` must end at
the first newline (its give-back alternatives all fail on the mandatory `\n`),
so the path token is exactly the rest of the current line. -/
def pathFence (cs : List Char) : Option (List Char × List Char × List Char × List Char) :=
  let p := cs.takeWhile (fun c => c != '\n')
  if p.isEmpty then none
  else
    let cs1 := cs.dropWhile (fun c => c != '\n')
    if cs1.take 1 = ['\n'] then
      (matchFence (cs1.drop 1)).map fun x => (p, x.1, x.2.1, x.2.2)
    else none

/-- Greedy `\s*` in front of `pathFence`, with the regex engine's give-back:
consume as much whitespace as possible first, and on failure of the
continuation retry with one whitespace character less. -/
def wsPathFence : List Char → Option (List Char × List Char × List Char × List Char)
  | [] => none
  | c :: cs =>
    if isWs c then
      match wsPathFence cs with
      | some r => some r
      | none => pathFence (c :: cs)
    else pathFence (c :: cs)

/-- One attempt of the primary regex `FILE:\s*([^\n]+)\n(fence)` at the start
of `cs`.  Returns `(path token, language tag, raw body, rest)`. -/
def matchPrimary (cs : List Char) : Option (List Char × List Char × List Char × List Char) :=
  if cs.take 5 = ['F', 'I', 'L', 'E', ':'] then wsPathFence (cs.drop 5) else none

/-- The `(optional backtick)([^(backtick)\n]+)(optional backtick)\n(fence)`
part of the fallback regex, after the heading markers and `\s*`.  The two
optional backticks are deterministic once backtracking is taken into account:
the path token is the maximal run of non-backtick non-newline characters, and
the run must be followed by a newline, optionally preceded by one backtick. -/
def altBody (cs0 : List Char) : Option (List Char × List Char × List Char × List Char) :=
  let p := cs0.takeWhile (fun c => c != btk && c != '\n')
  if p.isEmpty then none
  else
    let cs1 := cs0.dropWhile (fun c => c != btk && c != '\n')
    let cs2 := if cs1.take 1 = [btk] then cs1.drop 1 else cs1
    if cs2.take 1 = ['\n'] then
      (matchFence (cs2.drop 1)).map fun x => (p, x.1, x.2.1, x.2.2)
    else none

def altPathFence (cs : List Char) : Option (List Char × List Char × List Char × List Char) :=
  altBody (if cs.take 1 = [btk] then cs.drop 1 else cs)

/-- Greedy `\s*` in front of `altPathFence`, with give-back. -/
def wsAltPath : List Char → Option (List Char × List Char × List Char × List Char)
  | [] => none
  | c :: cs =>
    if isWs c then
      match wsAltPath cs with
      | some r => some r
      | none => altPathFence (c :: cs)
    else altPathFence (c :: cs)

/-- One attempt of the fallback regex `(?:#{2,3}|####)\s*...` at the start of
`cs`, in the engine's order: three markers, then two, then the literal
four-marker alternative. -/
def matchAlt (cs : List Char) : Option (List Char × List Char × List Char × List Char) :=
  (if cs.take 3 = ['#', '#', '#'] then wsAltPath (cs.drop 3) else none) <|>
    ((if cs.take 2 = ['#', '#'] then wsAltPath (cs.drop 2) else none) <|>
      (if cs.take 4 = ['#', '#', '#', '#'] then wsAltPath (cs.drop 4) else none))

/-- The extension table of `detectLanguage` (routes.ts 1133-1148), a literal
JavaScript object lookup; `none` models a missing key. -/
def langMap (ext : String) : Option String :=
  if ext = ".ts" then some "typescript"
  else if ext = ".tsx" then some "tsx"
  else if ext = ".js" then some "javascript"
  else if ext = ".jsx" then some "jsx"
  else if ext = ".py" then some "python"
  else if ext = ".json" then some "json"
  else if ext = ".html" then some "html"
  else if ext = ".css" then some "css"
  else if ext = ".md" then some "markdown"
  else if ext = ".yml" then some "yaml"
  else if ext = ".yaml" then some "yaml"
  else if ext = ".sql" then some "sql"
  else if ext = ".env" then some "plaintext"
  else if ext = ".gitignore" then some "plaintext"
  else none

/-- Node `path.extname` restricted to one basename (no separators): the slice
from the last dot, except that a dot in first position or a basename equal to
`..` yields the empty extension. -/
def extnameBase (b : List Char) : List Char :=
  let rb := b.reverse
  let afterDot := rb.takeWhile (fun c => c != '.')
  if afterDot.length = rb.length then []
  else
    let pre := rb.drop (afterDot.length + 1)
    if pre.isEmpty then []
    else if pre = ['.'] ∧ afterDot.isEmpty then []
    else '.' :: afterDot.reverse

/-- Node `path.extname` (posix): ignore trailing slashes, take the basename
after the last slash, and extract its extension. -/
def extnameStr (p : String) : String :=
  let r := p.data.reverse.dropWhile (fun c => c = '/')
  ⟨extnameBase (r.takeWhile (fun c => c != '/')).reverse⟩

/-- `detectLanguage` (routes.ts 1131-1150): look up the lowercased extension
of the path in the table, defaulting to `plaintext` (`langMap[ext] ||
"plaintext"`; every table value is truthy). -/
def detectLanguage (filePath : String) : String :=
  let ext : String := ⟨(extnameStr filePath).data.map Char.toLower⟩
  (langMap ext).getD "plaintext"

/-- The body of the primary `while` loop (routes.ts 1095-1106):
`filePath = match[1].trim()`, `language = match[2] || detectLanguage(filePath)`
(the empty tag is falsy), `content = match[3].trim()`; the record is pushed
only `if (filePath && content)` (both non-empty). -/
def emitPrimary (p l cnt : List Char) : Option FileRec :=
  let filePath := jsTrim p
  let language := if l.isEmpty then detectLanguage ⟨filePath⟩ else (⟨l⟩ : String)
  let content := jsTrim cnt
  if filePath.isEmpty || content.isEmpty then none
  else some ⟨⟨filePath⟩, ⟨content⟩, language⟩

/-- The body of the fallback `while` loop (routes.ts 1113-1124): same as the
primary body with the extra guard `filePath.includes(".")`. -/
def emitAlt (p l cnt : List Char) : Option FileRec :=
  let filePath := jsTrim p
  let language := if l.isEmpty then detectLanguage ⟨filePath⟩ else (⟨l⟩ : String)
  let content := jsTrim cnt
  if filePath.isEmpty || content.isEmpty || !(filePath.contains '.') then none
  else some ⟨⟨filePath⟩, ⟨content⟩, language⟩

/-- The `exec` loop of a global regex: try the matcher at every position from
left to right, restart after the end of each match, and collect the records
accepted by the loop body.  The fuel argument (instantiated with the input
length) only serves to make the recursion structural; every match consumes at
least one character, so the fuel never runs out. -/
def scanLoop (step : List Char → Option (List Char × List Char × List Char × List Char))
    (emit : List Char → List Char → List Char → Option FileRec) :
    Nat → List Char → List FileRec
  | 0, _ => []
  | _ + 1, [] => []
  | fuel + 1, c :: cs =>
    match step (c :: cs) with
    | some (p, l, cnt, rest) =>
      match emit p l cnt with
      | some r => r :: scanLoop step emit fuel rest
      | none => scanLoop step emit fuel rest
    | none => scanLoop step emit fuel cs

/-- The primary phase: the `filePattern` loop. -/
def scanPrimary (cs : List Char) : List FileRec :=
  scanLoop matchPrimary emitPrimary cs.length cs

/-- The fallback phase: the `altPattern` loop. -/
def scanAlt (cs : List Char) : List FileRec :=
  scanLoop matchAlt emitAlt cs.length cs

/-- `parseFilesFromResponse` (routes.ts 1088-1129): run the primary loop; if
it produced no records, run the fallback loop instead. -/
def parseFilesFromResponse (response : String) : List FileRec :=
  let files := scanPrimary response.data
  if files.isEmpty then scanAlt response.data else files

/-- `path.replace(/^\/+/, "")` in the download handler: strip every leading
slash from the entry name. -/
def stripLeadingSlashes (p : String) : String :=
  ⟨p.data.dropWhile (fun c => c = '/')⟩

/-- A ZIP entry as written by the `/api/download-project` handler.
Modelled from the spec: the AdmZip archive object is not part of `src/`; the
spec describes it as an ordered sequence of named entries whose bytes are the
UTF-8 encoding of the content string, and reading an entry back decodes those
bytes; since UTF-8 encoding is injective, the bytes are represented here by
the content string itself. -/
structure ZipEntry where
  name : String
  data : String
deriving DecidableEq, Repr

/-- The entry-building loop of the `/api/download-project` handler (routes.ts
1060-1066): for each file with truthy (non-empty) `path` and `content`, add an
entry named `path` minus its leading slashes, carrying `content`. -/
def downloadProjectEntries (files : List FileRec) : List ZipEntry :=
  files.filterMap fun f =>
    if f.path ≠ "" ∧ f.content ≠ "" then some ⟨stripLeadingSlashes f.path, f.content⟩
    else none

/-- Modelled from the spec: reading an entry back from the archive returns the
data of the first entry with the given name. -/
def readEntry (entries : List ZipEntry) (name : String) : Option String :=
  (entries.find? fun e => e.name == name).map ZipEntry.data

/-- Is the optional character (an end of a list) not whitespace? -/
def wsAt (o : Option Char) : Bool :=
  match o with
  | some c => isWs c
  | none => false

/-- Both ends of the list are free of JavaScript whitespace (so `trim` is the
identity on it). -/
def noWsEnds (l : List Char) : Bool :=
  !wsAt l.head? && !wsAt l.getLast?

/-- A well-formed `FILE:` block of the primary pattern, with the text that
precedes it in the input. -/
structure BlockSpec where
  sep : List Char
  path : List Char
  lang : List Char
  content : List Char

/-- The canonical text of one well-formed primary block:
`FILE: <path>` on one line, then a fenced code block. -/
def mkBlockL (p l c : List Char) : List Char :=
  'F' :: 'I' :: 'L' :: 'E' :: ':' :: ' ' ::
    (p ++ '\n' :: btk :: btk :: btk ::
      (l ++ '\n' :: (c ++ '\n' :: btk :: btk :: btk :: [])))

/-- An input made of well-formed primary blocks, each preceded by its
separator text, followed by a final stretch of text. -/
def blocksTextL : List BlockSpec → List Char → List Char
  | [], fin => fin
  | b :: rest, fin => b.sep ++ (mkBlockL b.path b.lang b.content ++ blocksTextL rest fin)

/-- Well-formedness of one primary block: the path is non-empty, trimmed and
on one line; the language tag is made of word characters; the content is
non-empty, trimmed and free of triple backticks; the preceding text contains
no `F` (so it cannot start a `FILE:` match). -/
def PrimBlockOk (b : BlockSpec) : Prop :=
  b.path ≠ [] ∧ noWsEnds b.path = true ∧ '\n' ∉ b.path ∧
  (∀ ch ∈ b.lang, isWord ch = true) ∧
  b.content ≠ [] ∧ noWsEnds b.content = true ∧ hasTriple b.content = false ∧
  (∀ ch ∈ b.sep, ch ≠ 'F')

instance (b : BlockSpec) : Decidable (PrimBlockOk b) := by
  unfold PrimBlockOk; infer_instance

/-- The canonical text of one heading-style block with `m` heading markers. -/
def altBlockL (m : Nat) (p l c : List Char) : List Char :=
  List.replicate m '#' ++ ' ' ::
    (p ++ '\n' :: btk :: btk :: btk ::
      (l ++ '\n' :: (c ++ '\n' :: btk :: btk :: btk :: [])))

/-- The path token the fallback pattern extracts from a heading with `m`
markers: the heading consumes at most three markers, and the surplus ones
land in the token. -/
def altTokenL (m : Nat) (p : List Char) : List Char :=
  if m ≤ 3 then p else List.replicate (m - 3) '#' ++ ' ' :: p

/-- Well-formedness of one heading-style block: the path token is non-empty,
trimmed, on one line, free of backticks and contains a dot; tag and content
as in the primary case; no piece contains `F`, so the primary pattern cannot
match anywhere in the block. -/
def AltBlockOk (p l c : List Char) : Prop :=
  p ≠ [] ∧ noWsEnds p = true ∧ '\n' ∉ p ∧ btk ∉ p ∧ 'F' ∉ p ∧ '.' ∈ p ∧
  (∀ ch ∈ l, isWord ch = true) ∧ 'F' ∉ l ∧
  c ≠ [] ∧ noWsEnds c = true ∧ hasTriple c = false ∧ 'F' ∉ c

instance (p l c : List Char) : Decidable (AltBlockOk p l c) := by
  unfold AltBlockOk; infer_instance

/-! ### List helpers -/

theorem take2_pair {t : List Char} {u v : Char} (h : t.take 2 = [u, v]) :
    ∃ t', t = u :: v :: t' := by
  cases t with
  | nil => simp at h
  | cons a t' =>
    cases t' with
    | nil => simp [List.take_succ_cons] at h
    | cons b t'' =>
      have hab : a = u ∧ b = v := by simpa [List.take_succ_cons] using h
      exact ⟨t'', by simp [hab.1, hab.2]⟩

theorem takeWhile_middle {q : Char → Bool} {p : List Char} (hp : ∀ x ∈ p, q x = true)
    {y : Char} (hy : q y = false) (z : List Char) :
    (p ++ y :: z).takeWhile q = p ∧ (p ++ y :: z).dropWhile q = y :: z := by
  induction p with
  | nil => simp [List.takeWhile_cons, List.dropWhile_cons, hy]
  | cons x p ih =>
    have hx : q x = true := hp x (by simp)
    obtain ⟨h1, h2⟩ := ih fun a ha => hp a (by simp [ha])
    constructor
    · simp [List.takeWhile_cons, hx, h1]
    · simp [List.dropWhile_cons, hx, h2]

theorem getLastq_append {l₁ l₂ : List Char} (h : l₂ ≠ []) :
    (l₁ ++ l₂).getLast? = l₂.getLast? := by
  induction l₁ with
  | nil => simp
  | cons x t ih =>
    have hne : t ++ l₂ ≠ [] := by simp [h]
    cases hc : t ++ l₂ with
    | nil => exact absurd hc hne
    | cons a u =>
      rw [List.cons_append, hc, List.getLast?_cons_cons, ← hc, ih]

theorem dropWhile_of_head {q : Char → Bool} {l : List Char}
    (h : ∀ a, l.head? = some a → q a = false) : l.dropWhile q = l := by
  cases l with
  | nil => rfl
  | cons x t => simp [List.dropWhile_cons, h x rfl]

/-! ### Trim lemmas -/

theorem noWsEnds_parts {l : List Char} (h : noWsEnds l = true) :
    wsAt l.head? = false ∧ wsAt l.getLast? = false := by
  unfold noWsEnds at h
  simpa [Bool.and_eq_true, Bool.not_eq_true'] using h

theorem jsTrim_eq_self {l : List Char} (h : noWsEnds l = true) : jsTrim l = l := by
  obtain ⟨h1, h2⟩ := noWsEnds_parts h
  unfold jsTrim
  have e1 : l.dropWhile isWs = l :=
    dropWhile_of_head fun a ha => by rw [ha] at h1; simpa [wsAt] using h1
  rw [e1]
  have e2 : l.reverse.dropWhile isWs = l.reverse :=
    dropWhile_of_head fun a ha => by
      rw [List.head?_reverse] at ha
      rw [ha] at h2; simpa [wsAt] using h2
  rw [e2, List.reverse_reverse]

theorem jsTrim_concat_nl {c : List Char} (h : noWsEnds c = true) :
    jsTrim (c ++ ['\n']) = c := by
  obtain ⟨h1, h2⟩ := noWsEnds_parts h
  cases c with
  | nil => decide
  | cons x t =>
    unfold jsTrim
    have hx : isWs x = false := by simpa [wsAt] using h1
    have e1 : ((x :: t) ++ ['\n']).dropWhile isWs = (x :: t) ++ ['\n'] := by
      simp [List.dropWhile_cons, hx]
    rw [e1]
    have e2 : ((x :: t) ++ ['\n']).reverse = '\n' :: (x :: t).reverse := by
      simp
    rw [e2]
    have hnlws : isWs '\n' = true := by decide
    rw [List.dropWhile_cons, if_pos (by simp [hnlws])]
    have e3 : (x :: t).reverse.dropWhile isWs = (x :: t).reverse :=
      dropWhile_of_head fun a ha => by
        rw [List.head?_reverse] at ha
        rw [ha] at h2; simpa [wsAt] using h2
    rw [e3, List.reverse_reverse]

/-! ### hasTriple lemmas -/

theorem hasTriple_cons (c : Char) (l : List Char) :
    hasTriple (c :: l) =
      if c = btk ∧ l.take 2 = [btk, btk] then true else hasTriple l := rfl

theorem hasTriple_append_right {m : List Char} (h : hasTriple m = true) (y : List Char) :
    hasTriple (m ++ y) = true := by
  induction m with
  | nil => simp [hasTriple] at h
  | cons c t ih =>
    rw [List.cons_append, hasTriple_cons]
    rw [hasTriple_cons] at h
    split at h
    · case isTrue hc =>
      obtain ⟨t', rfl⟩ := take2_pair hc.2
      rw [if_pos ⟨hc.1, by simp [List.take_succ_cons]⟩]
    · case isFalse =>
      split
      · rfl
      · exact ih h

theorem hasTriple_append_left {m : List Char} (h : hasTriple m = true) (x : List Char) :
    hasTriple (x ++ m) = true := by
  induction x with
  | nil => simpa using h
  | cons c t ih =>
    rw [List.cons_append, hasTriple_cons]
    split
    · rfl
    · exact ih

theorem hasTriple_middle_free {x m y : List Char} (h : hasTriple (x ++ (m ++ y)) = false) :
    hasTriple m = false := by
  by_contra hm
  rw [Bool.not_eq_false] at hm
  rw [hasTriple_append_left (hasTriple_append_right hm y) x] at h
  cases h

theorem jsTrim_middle (l : List Char) : ∃ x y, l = x ++ (jsTrim l ++ y) := by
  refine ⟨l.takeWhile isWs, ((l.dropWhile isWs).reverse.takeWhile isWs).reverse, ?_⟩
  unfold jsTrim
  conv_lhs => rw [← List.takeWhile_append_dropWhile isWs l]
  congr 1
  conv_lhs =>
    rw [← List.reverse_reverse (l.dropWhile isWs),
      ← List.takeWhile_append_dropWhile isWs (l.dropWhile isWs).reverse]
  rw [List.reverse_append]

theorem jsTrim_fenceFree {l : List Char} (h : hasTriple l = false) :
    hasTriple (jsTrim l) = false := by
  obtain ⟨x, y, hxy⟩ := jsTrim_middle l
  rw [hxy] at h
  exact hasTriple_middle_free h

theorem hasTriple_concat {l : List Char} {ch : Char} (h : hasTriple l = false)
    (hch : ch ≠ btk) : hasTriple (l ++ [ch]) = false := by
  induction l with
  | nil => simp [hasTriple, hasTriple_cons, hch]
  | cons c t ih =>
    rw [hasTriple_cons] at h
    split at h
    · cases h
    · case isFalse hc =>
      have ht := ih h
      rw [List.cons_append, hasTriple_cons]
      split
      · case isTrue hc2 =>
        exfalso
        obtain ⟨t', ht'⟩ := take2_pair hc2.2
        cases t with
        | nil => simp at ht'
        | cons a t2 =>
          cases t2 with
          | nil =>
            simp at ht'
            exact hch ht'.2.1
          | cons b t3 =>
            simp at ht'
            exact hc ⟨hc2.1, by simp [List.take_succ_cons, ht'.1, ht'.2.1]⟩
      · exact ht

/-! ### untilFence lemmas -/

theorem untilFence_cons (c : Char) (l : List Char) :
    untilFence (c :: l) =
      if c = btk ∧ l.take 2 = [btk, btk] then some ([], l.drop 2)
      else (untilFence l).map fun ab => (c :: ab.1, ab.2) := rfl

theorem untilFence_some : ∀ {cs a b : List Char}, untilFence cs = some (a, b) →
    cs = a ++ btk :: btk :: btk :: b := by
  intro cs
  induction cs with
  | nil => intro a b h; simp [untilFence] at h
  | cons c l ih =>
    intro a b h
    rw [untilFence_cons] at h
    split at h
    · case isTrue hc =>
      obtain ⟨l', rfl⟩ := take2_pair hc.2
      simp only [List.drop_succ_cons, List.drop_zero, Option.some.injEq, Prod.mk.injEq] at h
      rw [← h.1, ← h.2, hc.1]
      rfl
    · case isFalse hc =>
      cases hu : untilFence l with
      | none => rw [hu] at h; simp at h
      | some ab =>
        rw [hu] at h
        simp only [Option.map_some', Option.some.injEq, Prod.mk.injEq] at h
        have hl := ih (a := ab.1) (b := ab.2) (by rw [hu])
        rw [← h.1, ← h.2, List.cons_append]
        rw [← hl]

theorem untilFence_fenceFree : ∀ {cs a b : List Char}, untilFence cs = some (a, b) →
    hasTriple a = false := by
  intro cs
  induction cs with
  | nil => intro a b h; simp [untilFence] at h
  | cons c l ih =>
    intro a b h
    rw [untilFence_cons] at h
    split at h
    · case isTrue hc =>
      simp only [Option.some.injEq, Prod.mk.injEq] at h
      rw [← h.1]
      rfl
    · case isFalse hc =>
      cases hu : untilFence l with
      | none => rw [hu] at h; simp at h
      | some ab =>
        rw [hu] at h
        simp only [Option.map_some', Option.some.injEq, Prod.mk.injEq] at h
        have hfree := ih (a := ab.1) (b := ab.2) (by rw [hu])
        rw [← h.1, hasTriple_cons]
        split
        · case isTrue hc2 =>
          exfalso
          obtain ⟨t', ht'⟩ := take2_pair hc2.2
          have hl := untilFence_some (a := ab.1) (b := ab.2) (by rw [hu])
          rw [ht'] at hl
          exact hc ⟨hc2.1, by rw [hl]; simp [List.take_succ_cons]⟩
        · exact hfree

theorem untilFence_app {a : List Char} (hf : hasTriple a = false)
    (hl : a.getLast? ≠ some btk) (b : List Char) :
    untilFence (a ++ btk :: btk :: btk :: b) = some (a, b) := by
  induction a with
  | nil =>
    rw [List.nil_append, untilFence_cons,
      if_pos ⟨rfl, by simp [List.take_succ_cons]⟩]
    simp
  | cons x t ih =>
    rw [List.cons_append, untilFence_cons]
    have hcond : ¬(x = btk ∧ (t ++ btk :: btk :: btk :: b).take 2 = [btk, btk]) := by
      rintro ⟨rfl, h2⟩
      cases t with
      | nil => exact hl (by simp)
      | cons y t2 =>
        cases t2 with
        | nil =>
          simp [List.take_succ_cons] at h2
          exact hl (by simp [h2])
        | cons z t3 =>
          simp [List.take_succ_cons] at h2
          rw [hasTriple_cons,
            if_pos ⟨rfl, by simp [List.take_succ_cons, h2.1, h2.2]⟩] at hf
          cases hf
    rw [if_neg hcond]
    have hft : hasTriple t = false := by
      rw [hasTriple_cons] at hf
      split at hf
      · cases hf
      · exact hf
    have hlt : t.getLast? ≠ some btk := by
      cases t with
      | nil => simp
      | cons y t2 =>
        have : (x :: y :: t2).getLast? = (y :: t2).getLast? := List.getLast?_cons_cons
        rw [← this]
        exact hl
    rw [ih hft hlt]
    simp

/-! ### Positive characterization of the primary matcher on a well-formed block -/

theorem matchFence_app {l c : List Char} (hl : ∀ ch ∈ l, isWord ch = true)
    (hc : hasTriple c = false) (rest : List Char) :
    matchFence (btk :: btk :: btk :: (l ++ '\n' :: (c ++ '\n' :: btk :: btk :: btk :: rest))) =
      some (l, c ++ ['\n'], rest) := by
  unfold matchFence
  rw [if_pos (by simp [List.take_succ_cons])]
  simp only [List.drop_succ_cons, List.drop_zero]
  obtain ⟨ht, hd⟩ :=
    takeWhile_middle (q := isWord) hl (y := '\n') (by decide)
      (c ++ '\n' :: btk :: btk :: btk :: rest)
  rw [ht, hd]
  rw [if_pos (by simp [List.take_succ_cons])]
  simp only [List.drop_succ_cons, List.drop_zero]
  have hre : c ++ '\n' :: btk :: btk :: btk :: rest =
      (c ++ ['\n']) ++ btk :: btk :: btk :: rest := by simp
  rw [hre, untilFence_app (hasTriple_concat hc (by decide))
    (by rw [List.getLast?_concat]; decide) rest]
  rfl

theorem pathFence_app {p : List Char} (hp : p ≠ []) (hpn : '\n' ∉ p)
    {l c : List Char} (hl : ∀ ch ∈ l, isWord ch = true) (hc : hasTriple c = false)
    (rest : List Char) :
    pathFence (p ++ '\n' :: btk :: btk :: btk ::
        (l ++ '\n' :: (c ++ '\n' :: btk :: btk :: btk :: rest))) =
      some (p, l, c ++ ['\n'], rest) := by
  unfold pathFence
  obtain ⟨ht, hd⟩ :=
    takeWhile_middle (q := fun ch => ch != '\n')
      (fun x hx => by
        have hne : x ≠ '\n' := fun he => hpn (he ▸ hx)
        simpa using hne)
      (y := '\n') (by simp)
      (btk :: btk :: btk :: (l ++ '\n' :: (c ++ '\n' :: btk :: btk :: btk :: rest)))
  rw [ht, hd]
  rw [if_neg (by simpa [List.isEmpty_iff] using hp)]
  rw [if_pos (by simp [List.take_succ_cons])]
  simp only [List.drop_succ_cons, List.drop_zero]
  rw [matchFence_app hl hc rest]
  rfl

theorem wsPathFence_cons (c : Char) (cs : List Char) :
    wsPathFence (c :: cs) =
      if isWs c then
        match wsPathFence cs with
        | some r => some r
        | none => pathFence (c :: cs)
      else pathFence (c :: cs) := rfl

theorem wsPathFence_lead {w z : List Char}
    {r : List Char × List Char × List Char × List Char}
    (hw : ∀ ch ∈ w, isWs ch = true)
    (hz : ∀ a, z.head? = some a → isWs a = false) (hr : pathFence z = some r) :
    wsPathFence (w ++ z) = some r := by
  induction w with
  | nil =>
    cases z with
    | nil => simp [pathFence] at hr
    | cons a t =>
      have ha := hz a rfl
      rw [List.nil_append, wsPathFence_cons, if_neg (by simp [ha])]
      exact hr
  | cons x w' ih =>
    have hx : isWs x = true := hw x (by simp)
    rw [List.cons_append, wsPathFence_cons, if_pos hx,
      ih fun a ha => hw a (by simp [ha])]

theorem take1_pair {t : List Char} {u : Char} (h : t.take 1 = [u]) : ∃ t', t = u :: t' := by
  cases t with
  | nil => simp at h
  | cons a t' =>
    have ha : a = u := by simpa [List.take_succ_cons] using h
    exact ⟨t', by rw [ha]⟩

theorem take_cons_ne {c d : Char} {cs l : List Char} (h : c ≠ d) (n : Nat) :
    ¬(c :: cs).take (n + 1) = d :: l := by
  rw [List.take_succ_cons]
  intro hx
  injection hx with h1 _
  exact h h1

theorem matchPrimary_block {p l c : List Char} (hp : p ≠ [])
    (hph : ∀ a, p.head? = some a → isWs a = false) (hpn : '\n' ∉ p)
    (hl : ∀ ch ∈ l, isWord ch = true) (hc : hasTriple c = false) (rest : List Char) :
    matchPrimary (mkBlockL p l c ++ rest) = some (p, l, c ++ ['\n'], rest) := by
  have hblock : mkBlockL p l c ++ rest =
      'F' :: 'I' :: 'L' :: 'E' :: ':' :: ' ' ::
        (p ++ '\n' :: btk :: btk :: btk ::
          (l ++ '\n' :: (c ++ '\n' :: btk :: btk :: btk :: rest))) := by
    simp [mkBlockL]
  rw [hblock]
  unfold matchPrimary
  rw [if_pos (by simp [List.take_succ_cons])]
  simp only [List.drop_succ_cons, List.drop_zero]
  have hhead : ∀ a, (p ++ '\n' :: btk :: btk :: btk ::
      (l ++ '\n' :: (c ++ '\n' :: btk :: btk :: btk :: rest))).head? = some a →
      isWs a = false := by
    cases p with
    | nil => exact absurd rfl hp
    | cons p0 p' =>
      intro a ha
      simp only [List.cons_append, List.head?_cons, Option.some.injEq] at ha
      rw [← ha]
      exact hph p0 rfl
  exact wsPathFence_lead (w := [' '])
    (by intro ch hch; simp at hch; subst hch; decide)
    hhead (pathFence_app hp hpn hl hc rest)

theorem matchPrimary_head_ne {c : Char} (h : c ≠ 'F') (cs : List Char) :
    matchPrimary (c :: cs) = none := by
  unfold matchPrimary
  rw [if_neg (take_cons_ne h 4)]

theorem matchAlt_head_ne {c : Char} (h : c ≠ '#') (cs : List Char) :
    matchAlt (c :: cs) = none := by
  unfold matchAlt
  rw [if_neg (take_cons_ne h 2), if_neg (take_cons_ne h 1), if_neg (take_cons_ne h 3)]
  simp

/-! ### Inversion: every successful match has a fence-free body and consumes
at least one character -/

theorem matchFence_inv {cs l cnt rest : List Char}
    (h : matchFence cs = some (l, cnt, rest)) :
    hasTriple cnt = false ∧ rest.length + 7 ≤ cs.length := by
  unfold matchFence at h
  split at h
  · case isTrue h3 =>
    simp only [] at h
    split at h
    · case isTrue h1 =>
      cases hu : untilFence (((cs.drop 3).dropWhile isWord).drop 1) with
      | none => rw [hu] at h; simp at h
      | some ab =>
        rw [hu] at h
        simp only [Option.map_some', Option.some.injEq, Prod.mk.injEq] at h
        have hfree : hasTriple ab.1 = false :=
          untilFence_fenceFree (a := ab.1) (b := ab.2) (by rw [hu])
        have hdec := untilFence_some (a := ab.1) (b := ab.2) (by rw [hu])
        constructor
        · rw [← h.2.1]; exact hfree
        · have h3len : 3 ≤ cs.length := by
            have htk := congrArg List.length h3
            rw [List.length_take] at htk
            simp at htk
            omega
          have hlen3 : (cs.drop 3).length = cs.length - 3 := List.length_drop 3 cs
          have hsplit := congrArg List.length
            (List.takeWhile_append_dropWhile isWord (cs.drop 3))
          rw [List.length_append] at hsplit
          obtain ⟨t', ht'⟩ := take1_pair h1
          have hdl : ((cs.drop 3).dropWhile isWord).length = t'.length + 1 := by
            rw [ht']; simp
          have hda : (((cs.drop 3).dropWhile isWord).drop 1).length = t'.length := by
            rw [ht']; simp
          have hdc := congrArg List.length hdec
          rw [hda] at hdc
          simp [List.length_append] at hdc
          rw [← h.2.2]
          omega
    · exact absurd h (by simp)
  · exact absurd h (by simp)

theorem pathFence_inv {cs p l cnt rest : List Char}
    (h : pathFence cs = some (p, l, cnt, rest)) :
    hasTriple cnt = false ∧ rest.length < cs.length := by
  unfold pathFence at h
  simp only [] at h
  split at h
  · exact absurd h (by simp)
  · case isFalse hne =>
    split at h
    · case isTrue h1 =>
      cases hm : matchFence ((cs.dropWhile fun c => c != '\n').drop 1) with
      | none => rw [hm] at h; simp at h
      | some x =>
        rw [hm] at h
        simp only [Option.map_some', Option.some.injEq, Prod.mk.injEq] at h
        obtain ⟨hfree, hlen⟩ :=
          matchFence_inv (show matchFence ((cs.dropWhile fun c => c != '\n').drop 1) =
            some (x.1, x.2.1, x.2.2) from by rw [hm])
        constructor
        · rw [← h.2.2.1]; exact hfree
        · have hsplit := congrArg List.length
            (List.takeWhile_append_dropWhile (fun c => c != '\n') cs)
          rw [List.length_append] at hsplit
          obtain ⟨t', ht'⟩ := take1_pair h1
          have hda : ((cs.dropWhile fun c => c != '\n').drop 1).length = t'.length := by
            rw [ht']; simp
          have hdl : (cs.dropWhile fun c => c != '\n').length = t'.length + 1 := by
            rw [ht']; simp
          rw [← h.2.2.2]
          omega
    · exact absurd h (by simp)

theorem wsPathFence_inv : ∀ {cs : List Char} {p l cnt rest : List Char},
    wsPathFence cs = some (p, l, cnt, rest) →
    hasTriple cnt = false ∧ rest.length < cs.length := by
  intro cs
  induction cs with
  | nil => intro p l cnt rest h; simp [wsPathFence] at h
  | cons c cs' ih =>
    intro p l cnt rest h
    rw [wsPathFence_cons] at h
    split at h
    · cases hw : wsPathFence cs' with
      | some r =>
        rw [hw] at h
        injection h with h'
        subst h'
        obtain ⟨hfree, hlen⟩ := ih hw
        exact ⟨hfree, by simp only [List.length_cons]; omega⟩
      | none =>
        rw [hw] at h
        exact pathFence_inv h
    · exact pathFence_inv h

theorem matchPrimary_inv {cs p l cnt rest : List Char}
    (h : matchPrimary cs = some (p, l, cnt, rest)) :
    hasTriple cnt = false ∧ rest.length < cs.length := by
  unfold matchPrimary at h
  split at h
  · obtain ⟨hfree, hlen⟩ := wsPathFence_inv h
    refine ⟨hfree, ?_⟩
    have := List.length_drop 5 cs
    omega
  · exact absurd h (by simp)

/-! ### Positive characterization of the fallback matcher on a heading block -/

theorem altBody_app {p : List Char} (hp : p ≠ []) (hpn : '\n' ∉ p) (hpb : btk ∉ p)
    {l c : List Char} (hl : ∀ ch ∈ l, isWord ch = true) (hc : hasTriple c = false)
    (rest : List Char) :
    altBody (p ++ '\n' :: btk :: btk :: btk ::
        (l ++ '\n' :: (c ++ '\n' :: btk :: btk :: btk :: rest))) =
      some (p, l, c ++ ['\n'], rest) := by
  unfold altBody
  obtain ⟨ht, hd⟩ :=
    takeWhile_middle (q := fun ch => ch != btk && ch != '\n')
      (fun x hx => by
        have hne1 : x ≠ btk := fun he => hpb (he ▸ hx)
        have hne2 : x ≠ '\n' := fun he => hpn (he ▸ hx)
        simp [hne1, hne2])
      (y := '\n') (by simp)
      (btk :: btk :: btk :: (l ++ '\n' :: (c ++ '\n' :: btk :: btk :: btk :: rest)))
  simp only [] at ht hd ⊢
  rw [ht, hd]
  rw [if_neg (by simpa [List.isEmpty_iff] using hp)]
  rw [if_neg (take_cons_ne (show ('\n' : Char) ≠ btk by decide) 0)]
  rw [if_pos (by simp [List.take_succ_cons])]
  simp only [List.drop_succ_cons, List.drop_zero]
  rw [matchFence_app hl hc rest]
  rfl

theorem altPathFence_app {p : List Char} (hp : p ≠ []) (hpn : '\n' ∉ p) (hpb : btk ∉ p)
    {l c : List Char} (hl : ∀ ch ∈ l, isWord ch = true) (hc : hasTriple c = false)
    (rest : List Char) :
    altPathFence (p ++ '\n' :: btk :: btk :: btk ::
        (l ++ '\n' :: (c ++ '\n' :: btk :: btk :: btk :: rest))) =
      some (p, l, c ++ ['\n'], rest) := by
  unfold altPathFence
  cases p with
  | nil => exact absurd rfl hp
  | cons p0 p' =>
    have hp0 : p0 ≠ btk := fun he => hpb (by rw [← he]; exact List.mem_cons_self p0 p')
    rw [List.cons_append, if_neg (take_cons_ne hp0 0), ← List.cons_append]
    exact altBody_app hp hpn hpb hl hc rest

theorem wsAltPath_cons (c : Char) (cs : List Char) :
    wsAltPath (c :: cs) =
      if isWs c then
        match wsAltPath cs with
        | some r => some r
        | none => altPathFence (c :: cs)
      else altPathFence (c :: cs) := rfl

theorem wsAltPath_lead {w z : List Char}
    {r : List Char × List Char × List Char × List Char}
    (hw : ∀ ch ∈ w, isWs ch = true)
    (hz : ∀ a, z.head? = some a → isWs a = false) (hr : altPathFence z = some r) :
    wsAltPath (w ++ z) = some r := by
  induction w with
  | nil =>
    cases z with
    | nil => simp [altPathFence, altBody] at hr
    | cons a t =>
      have ha := hz a rfl
      rw [List.nil_append, wsAltPath_cons, if_neg (by simp [ha])]
      exact hr
  | cons x w' ih =>
    have hx : isWs x = true := hw x (by simp)
    rw [List.cons_append, wsAltPath_cons, if_pos hx,
      ih fun a ha => hw a (by simp [ha])]

theorem headq_append {p : List Char} (hp : p ≠ [])
    (hph : ∀ a, p.head? = some a → isWs a = false) (z : List Char) :
    ∀ a, (p ++ z).head? = some a → isWs a = false := by
  cases p with
  | nil => exact absurd rfl hp
  | cons p0 p' =>
    intro a ha
    simp only [List.cons_append, List.head?_cons, Option.some.injEq] at ha
    rw [← ha]
    exact hph p0 rfl

theorem wsAltPath_space {p l c : List Char} (hp : p ≠ [])
    (hph : ∀ a, p.head? = some a → isWs a = false) (hpn : '\n' ∉ p) (hpb : btk ∉ p)
    (hl : ∀ ch ∈ l, isWord ch = true) (hc : hasTriple c = false) (rest : List Char) :
    wsAltPath (' ' :: (p ++ '\n' :: btk :: btk :: btk ::
        (l ++ '\n' :: (c ++ '\n' :: btk :: btk :: btk :: rest)))) =
      some (p, l, c ++ ['\n'], rest) :=
  wsAltPath_lead (w := [' '])
    (by intro ch hch; simp at hch; subst hch; decide)
    (headq_append hp hph _) (altPathFence_app hp hpn hpb hl hc rest)

theorem wsAltPath_hashes (k : Nat) {p l c : List Char} (hpn : '\n' ∉ p) (hpb : btk ∉ p)
    (hl : ∀ ch ∈ l, isWord ch = true) (hc : hasTriple c = false) (rest : List Char) :
    wsAltPath (List.replicate (k + 1) '#' ++ ' ' :: (p ++ '\n' :: btk :: btk :: btk ::
        (l ++ '\n' :: (c ++ '\n' :: btk :: btk :: btk :: rest)))) =
      some (List.replicate (k + 1) '#' ++ ' ' :: p, l, c ++ ['\n'], rest) := by
  have hq1 : List.replicate (k + 1) '#' ++ ' ' :: p ≠ [] := by
    simp [List.replicate_succ]
  have hq2 : '\n' ∉ List.replicate (k + 1) '#' ++ ' ' :: p := by
    intro hmem
    rcases List.mem_append.mp hmem with hh | hh
    · exact absurd (List.eq_of_mem_replicate hh) (by decide)
    · rcases List.mem_cons.mp hh with hh2 | hh2
      · exact absurd hh2 (by decide)
      · exact hpn hh2
  have hq3 : btk ∉ List.replicate (k + 1) '#' ++ ' ' :: p := by
    intro hmem
    rcases List.mem_append.mp hmem with hh | hh
    · exact absurd (List.eq_of_mem_replicate hh) (by decide)
    · rcases List.mem_cons.mp hh with hh2 | hh2
      · exact absurd hh2 (by decide)
      · exact hpb hh2
  rw [List.replicate_succ, List.cons_append, wsAltPath_cons, if_neg (by decide)]
  unfold altPathFence
  rw [if_neg (take_cons_ne (show ('#' : Char) ≠ btk by decide) 0)]
  have hsh : ('#' :: (List.replicate k '#' ++ ' ' :: (p ++ '\n' :: btk :: btk :: btk ::
      (l ++ '\n' :: (c ++ '\n' :: btk :: btk :: btk :: rest))))) =
      (List.replicate (k + 1) '#' ++ ' ' :: p) ++ '\n' :: btk :: btk :: btk ::
        (l ++ '\n' :: (c ++ '\n' :: btk :: btk :: btk :: rest)) := by
    simp [List.replicate_succ]
  rw [hsh]
  exact altBody_app hq1 hq2 hq3 hl hc rest

theorem matchAlt_block {m : Nat} (hm : 2 ≤ m) {p l c : List Char} (hp : p ≠ [])
    (hph : ∀ a, p.head? = some a → isWs a = false) (hpn : '\n' ∉ p) (hpb : btk ∉ p)
    (hl : ∀ ch ∈ l, isWord ch = true) (hc : hasTriple c = false) (rest : List Char) :
    matchAlt (altBlockL m p l c ++ rest) = some (altTokenL m p, l, c ++ ['\n'], rest) := by
  have hshape : altBlockL m p l c ++ rest =
      List.replicate m '#' ++ ' ' :: (p ++ '\n' :: btk :: btk :: btk ::
        (l ++ '\n' :: (c ++ '\n' :: btk :: btk :: btk :: rest))) := by
    simp [altBlockL]
  rw [hshape]
  match m, hm with
  | 2, _ =>
    have e2 : List.replicate 2 '#' = ['#', '#'] := rfl
    rw [e2]
    unfold matchAlt
    rw [if_neg (by
      simp only [List.cons_append, List.take_succ_cons, List.take_zero]
      intro hx
      injection hx with _ hx2
      injection hx2 with _ hx3
      injection hx3 with hx4 _
      exact absurd hx4 (by decide))]
    rw [if_pos (by simp [List.take_succ_cons])]
    simp only [List.cons_append, List.drop_succ_cons, List.drop_zero, List.nil_append]
    rw [wsAltPath_space hp hph hpn hpb hl hc rest]
    simp [altTokenL]
  | 3, _ =>
    have e3 : List.replicate 3 '#' = ['#', '#', '#'] := rfl
    rw [e3]
    unfold matchAlt
    rw [if_pos (by simp [List.take_succ_cons])]
    simp only [List.cons_append, List.drop_succ_cons, List.drop_zero, List.nil_append]
    rw [wsAltPath_space hp hph hpn hpb hl hc rest]
    simp [altTokenL]
  | (k + 4), _ =>
    have e4 : List.replicate (k + 4) '#' ++ ' ' :: (p ++ '\n' :: btk :: btk :: btk ::
        (l ++ '\n' :: (c ++ '\n' :: btk :: btk :: btk :: rest))) =
        '#' :: '#' :: '#' :: (List.replicate (k + 1) '#' ++ ' ' :: (p ++ '\n' :: btk :: btk :: btk ::
          (l ++ '\n' :: (c ++ '\n' :: btk :: btk :: btk :: rest)))) := by
      have : k + 4 = 3 + (k + 1) := by omega
      rw [this, List.replicate_add]
      simp [List.replicate_succ]
    rw [e4]
    unfold matchAlt
    rw [if_pos (by simp [List.take_succ_cons])]
    simp only [List.drop_succ_cons, List.drop_zero]
    rw [wsAltPath_hashes k hpn hpb hl hc rest]
    have htok : altTokenL (k + 4) p = List.replicate (k + 1) '#' ++ ' ' :: p := by
      unfold altTokenL
      rw [if_neg (by omega)]
      have hk : k + 4 - 3 = k + 1 := by omega
      rw [hk]
    rw [htok]
    simp

theorem altBody_inv {cs0 p l cnt rest : List Char}
    (h : altBody cs0 = some (p, l, cnt, rest)) :
    hasTriple cnt = false ∧ rest.length < cs0.length := by
  unfold altBody at h
  simp only [] at h
  split at h
  · exact absurd h (by simp)
  · case isFalse hne =>
    set cs1 := cs0.dropWhile fun c => c != btk && c != '\n' with hcs1
    set z := if cs1.take 1 = [btk] then cs1.drop 1 else cs1 with hz
    have hzlen : z.length ≤ cs1.length := by
      rw [hz]; split <;> simp
    split at h
    · case isTrue h1 =>
      cases hm : matchFence (z.drop 1) with
      | none => rw [hm] at h; simp at h
      | some x =>
        rw [hm] at h
        simp only [Option.map_some', Option.some.injEq, Prod.mk.injEq] at h
        obtain ⟨hfree, hlen⟩ :=
          matchFence_inv (show matchFence (z.drop 1) =
            some (x.1, x.2.1, x.2.2) from by rw [hm])
        refine ⟨by rw [← h.2.2.1]; exact hfree, ?_⟩
        have hsplit := congrArg List.length
          (List.takeWhile_append_dropWhile (fun c => c != btk && c != '\n') cs0)
        rw [List.length_append, ← hcs1] at hsplit
        have htw : 1 ≤ (cs0.takeWhile fun c => c != btk && c != '\n').length := by
          cases hq : cs0.takeWhile fun c => c != btk && c != '\n' with
          | nil => rw [hq] at hne; simp at hne
          | cons a t => simp
        have hd1 := List.length_drop 1 z
        rw [← h.2.2.2]
        omega
    · exact absurd h (by simp)

theorem altPathFence_inv {cs p l cnt rest : List Char}
    (h : altPathFence cs = some (p, l, cnt, rest)) :
    hasTriple cnt = false ∧ rest.length < cs.length := by
  unfold altPathFence at h
  obtain ⟨hfree, hlen⟩ := altBody_inv h
  refine ⟨hfree, lt_of_lt_of_le hlen ?_⟩
  split <;> simp

theorem wsAltPath_inv : ∀ {cs : List Char} {p l cnt rest : List Char},
    wsAltPath cs = some (p, l, cnt, rest) →
    hasTriple cnt = false ∧ rest.length < cs.length := by
  intro cs
  induction cs with
  | nil => intro p l cnt rest h; simp [wsAltPath] at h
  | cons c cs' ih =>
    intro p l cnt rest h
    rw [wsAltPath_cons] at h
    split at h
    · cases hw : wsAltPath cs' with
      | some r =>
        rw [hw] at h
        injection h with h'
        subst h'
        obtain ⟨hfree, hlen⟩ := ih hw
        exact ⟨hfree, by simp only [List.length_cons]; omega⟩
      | none =>
        rw [hw] at h
        exact altPathFence_inv h
    · exact altPathFence_inv h

theorem matchAlt_inv {cs p l cnt rest : List Char}
    (h : matchAlt cs = some (p, l, cnt, rest)) :
    hasTriple cnt = false ∧ rest.length < cs.length := by
  unfold matchAlt at h
  have hdrop : ∀ n, (cs.drop n).length ≤ cs.length := by
    intro n; simp
  have hcase : ∀ n, (if cs.take n = List.replicate n '#' then wsAltPath (cs.drop n) else none) =
      some (p, l, cnt, rest) → hasTriple cnt = false ∧ rest.length < cs.length := by
    intro n hn
    split at hn
    · obtain ⟨hfree, hlen⟩ := wsAltPath_inv hn
      exact ⟨hfree, lt_of_lt_of_le hlen (hdrop n)⟩
    · exact absurd hn (by simp)
  rcases (Option.orElse_eq_some _ _ _).mp h with h3 | ⟨_, h24⟩
  · split at h3
    · obtain ⟨hfree, hlen⟩ := wsAltPath_inv h3
      exact ⟨hfree, lt_of_lt_of_le hlen (hdrop 3)⟩
    · exact absurd h3 (by simp)
  · rcases (Option.orElse_eq_some _ _ _).mp h24 with h2 | ⟨_, h4⟩
    · split at h2
      · obtain ⟨hfree, hlen⟩ := wsAltPath_inv h2
        exact ⟨hfree, lt_of_lt_of_le hlen (hdrop 2)⟩
      · exact absurd h2 (by simp)
    · split at h4
      · obtain ⟨hfree, hlen⟩ := wsAltPath_inv h4
        exact ⟨hfree, lt_of_lt_of_le hlen (hdrop 4)⟩
      · exact absurd h4 (by simp)

/-! ### The exec-loop scanner -/

theorem scanLoop_cons_eq (step : List Char → Option (List Char × List Char × List Char × List Char))
    (emit : List Char → List Char → List Char → Option FileRec)
    (fuel : Nat) (c : Char) (cs : List Char) :
    scanLoop step emit (fuel + 1) (c :: cs) =
      match step (c :: cs) with
      | some (p, l, cnt, rest) =>
        match emit p l cnt with
        | some r => r :: scanLoop step emit fuel rest
        | none => scanLoop step emit fuel rest
      | none => scanLoop step emit fuel cs := rfl

theorem scanLoop_nil (step : List Char → Option (List Char × List Char × List Char × List Char))
    (emit : List Char → List Char → List Char → Option FileRec) (n : Nat) :
    scanLoop step emit n [] = [] := by
  cases n <;> rfl

theorem scanLoop_none_step {step : List Char → Option (List Char × List Char × List Char × List Char)}
    {emit : List Char → List Char → List Char → Option FileRec} {c : Char} {cs : List Char}
    {fuel : Nat} (h : step (c :: cs) = none) :
    scanLoop step emit (fuel + 1) (c :: cs) = scanLoop step emit fuel cs := by
  rw [scanLoop_cons_eq, h]

theorem scanLoop_skip_step {step : List Char → Option (List Char × List Char × List Char × List Char)}
    {emit : List Char → List Char → List Char → Option FileRec} {c : Char}
    {cs p l cnt rest : List Char} {fuel : Nat}
    (h : step (c :: cs) = some (p, l, cnt, rest)) (he : emit p l cnt = none) :
    scanLoop step emit (fuel + 1) (c :: cs) = scanLoop step emit fuel rest := by
  rw [scanLoop_cons_eq, h]
  show (match emit p l cnt with
        | some r => r :: scanLoop step emit fuel rest
        | none => scanLoop step emit fuel rest) = scanLoop step emit fuel rest
  rw [he]

theorem scanLoop_push_step {step : List Char → Option (List Char × List Char × List Char × List Char)}
    {emit : List Char → List Char → List Char → Option FileRec} {c : Char}
    {cs p l cnt rest : List Char} {fuel : Nat} {r : FileRec}
    (h : step (c :: cs) = some (p, l, cnt, rest)) (he : emit p l cnt = some r) :
    scanLoop step emit (fuel + 1) (c :: cs) = r :: scanLoop step emit fuel rest := by
  rw [scanLoop_cons_eq, h]
  show (match emit p l cnt with
        | some r => r :: scanLoop step emit fuel rest
        | none => scanLoop step emit fuel rest) = r :: scanLoop step emit fuel rest
  rw [he]

theorem scanLoop_fuel {step : List Char → Option (List Char × List Char × List Char × List Char)}
    {emit : List Char → List Char → List Char → Option FileRec}
    (hstep : ∀ cs p l cnt rest, step cs = some (p, l, cnt, rest) → rest.length < cs.length) :
    ∀ n cs, cs.length ≤ n → scanLoop step emit n cs = scanLoop step emit cs.length cs := by
  intro n
  induction n using Nat.strong_induction_on with
  | _ n ih =>
    intro cs hn
    cases cs with
    | nil => rw [scanLoop_nil, scanLoop_nil]
    | cons c cs' =>
      cases n with
      | zero => simp at hn
      | succ m =>
        rw [List.length_cons] at hn ⊢
        cases hs : step (c :: cs') with
        | none =>
          rw [scanLoop_none_step hs, scanLoop_none_step hs]
          have e1 := ih m (by omega) cs' (by omega)
          have e2 := ih cs'.length (by omega) cs' (by omega)
          rw [e1, e2]
        | some q =>
          obtain ⟨p, l, cnt, rest⟩ := q
          have hr : rest.length < cs'.length + 1 := by
            have := hstep _ _ _ _ _ hs
            simpa using this
          have e1 := ih m (by omega) rest (by omega)
          have e2 := ih cs'.length (by omega) rest (by omega)
          cases he : emit p l cnt with
          | none => rw [scanLoop_skip_step hs he, scanLoop_skip_step hs he, e1, e2]
          | some r => rw [scanLoop_push_step hs he, scanLoop_push_step hs he, e1, e2]

theorem matchPrimary_shrinks : ∀ (cs p l cnt rest : List Char),
    matchPrimary cs = some (p, l, cnt, rest) → rest.length < cs.length :=
  fun _ _ _ _ _ h => (matchPrimary_inv h).2

theorem matchAlt_shrinks : ∀ (cs p l cnt rest : List Char),
    matchAlt cs = some (p, l, cnt, rest) → rest.length < cs.length :=
  fun _ _ _ _ _ h => (matchAlt_inv h).2

theorem scanPrimary_cons_none {c : Char} {cs : List Char}
    (h : matchPrimary (c :: cs) = none) : scanPrimary (c :: cs) = scanPrimary cs := by
  unfold scanPrimary
  rw [List.length_cons, scanLoop_cons_eq, h]

theorem scanPrimary_cons_some {c : Char} {cs p l cnt rest : List Char} {r : FileRec}
    (h : matchPrimary (c :: cs) = some (p, l, cnt, rest))
    (he : emitPrimary p l cnt = some r) :
    scanPrimary (c :: cs) = r :: scanPrimary rest := by
  unfold scanPrimary
  rw [List.length_cons, scanLoop_push_step h he]
  have hr : rest.length ≤ cs.length := by
    have := matchPrimary_shrinks _ _ _ _ _ h
    simp at this
    omega
  rw [scanLoop_fuel matchPrimary_shrinks cs.length rest hr]

theorem scanPrimary_emit {cs p l cnt rest : List Char} {r : FileRec} (hcs : cs ≠ [])
    (h : matchPrimary cs = some (p, l, cnt, rest))
    (he : emitPrimary p l cnt = some r) :
    scanPrimary cs = r :: scanPrimary rest := by
  cases cs with
  | nil => exact absurd rfl hcs
  | cons c cs' => exact scanPrimary_cons_some h he

theorem scanAlt_cons_none {c : Char} {cs : List Char}
    (h : matchAlt (c :: cs) = none) : scanAlt (c :: cs) = scanAlt cs := by
  unfold scanAlt
  rw [List.length_cons, scanLoop_cons_eq, h]

theorem scanAlt_cons_some {c : Char} {cs p l cnt rest : List Char} {r : FileRec}
    (h : matchAlt (c :: cs) = some (p, l, cnt, rest))
    (he : emitAlt p l cnt = some r) :
    scanAlt (c :: cs) = r :: scanAlt rest := by
  unfold scanAlt
  rw [List.length_cons, scanLoop_push_step h he]
  have hr : rest.length ≤ cs.length := by
    have := matchAlt_shrinks _ _ _ _ _ h
    simp at this
    omega
  rw [scanLoop_fuel matchAlt_shrinks cs.length rest hr]

theorem scanAlt_emit {cs p l cnt rest : List Char} {r : FileRec} (hcs : cs ≠ [])
    (h : matchAlt cs = some (p, l, cnt, rest))
    (he : emitAlt p l cnt = some r) :
    scanAlt cs = r :: scanAlt rest := by
  cases cs with
  | nil => exact absurd rfl hcs
  | cons c cs' => exact scanAlt_cons_some h he

theorem scanLoop_mem {step : List Char → Option (List Char × List Char × List Char × List Char)}
    {emit : List Char → List Char → List Char → Option FileRec} :
    ∀ {n : Nat} {cs : List Char} {r : FileRec}, r ∈ scanLoop step emit n cs →
    ∃ cs' p l cnt rest, step cs' = some (p, l, cnt, rest) ∧ emit p l cnt = some r := by
  intro n
  induction n with
  | zero => intro cs r h; simp [scanLoop] at h
  | succ m ih =>
    intro cs r h
    cases cs with
    | nil => rw [scanLoop_nil] at h; simp at h
    | cons c cs' =>
      rw [scanLoop_cons_eq] at h
      cases hs : step (c :: cs') with
      | none => rw [hs] at h; exact ih h
      | some q =>
        obtain ⟨p, l, cnt, rest⟩ := q
        rw [hs] at h
        replace h : r ∈ (match emit p l cnt with
            | some r0 => r0 :: scanLoop step emit m rest
            | none => scanLoop step emit m rest) := h
        cases he : emit p l cnt with
        | none => rw [he] at h; exact ih h
        | some r0 =>
          rw [he] at h
          rcases List.mem_cons.mp h with hr | hr
          · exact ⟨c :: cs', p, l, cnt, rest, hs, by rw [he, hr]⟩
          · exact ih hr

theorem scanPrimary_skip {s z : List Char} (h : ∀ ch ∈ s, ch ≠ 'F') :
    scanPrimary (s ++ z) = scanPrimary z := by
  induction s with
  | nil => rw [List.nil_append]
  | cons c s' ih =>
    rw [List.cons_append, scanPrimary_cons_none (matchPrimary_head_ne (h c (by simp)) _)]
    exact ih fun ch hch => h ch (by simp [hch])

theorem scanPrimary_noF {s : List Char} (h : ∀ ch ∈ s, ch ≠ 'F') : scanPrimary s = [] := by
  have hz := scanPrimary_skip (z := []) h
  rw [List.append_nil] at hz
  rw [hz]
  rfl

theorem scanAlt_skip {s z : List Char} (h : ∀ ch ∈ s, ch ≠ '#') :
    scanAlt (s ++ z) = scanAlt z := by
  induction s with
  | nil => rw [List.nil_append]
  | cons c s' ih =>
    rw [List.cons_append, scanAlt_cons_none (matchAlt_head_ne (h c (by simp)) _)]
    exact ih fun ch hch => h ch (by simp [hch])

theorem scanAlt_noHash {s : List Char} (h : ∀ ch ∈ s, ch ≠ '#') : scanAlt s = [] := by
  have hz := scanAlt_skip (z := []) h
  rw [List.append_nil] at hz
  rw [hz]
  rfl

/-! ### Emission on well-formed blocks -/

theorem noWsEnds_head {l : List Char} (h : noWsEnds l = true) :
    ∀ a, l.head? = some a → isWs a = false := by
  intro a ha
  have h1 := (noWsEnds_parts h).1
  rw [ha] at h1
  simpa [wsAt] using h1

theorem noWsEnds_mk {l : List Char} (h1 : wsAt l.head? = false)
    (h2 : wsAt l.getLast? = false) : noWsEnds l = true := by
  unfold noWsEnds
  simp [h1, h2]

theorem emitPrimary_eq {p l c : List Char} (hp : p ≠ []) (hpt : noWsEnds p = true)
    (hc : c ≠ []) (hct : noWsEnds c = true) :
    emitPrimary p l (c ++ ['\n']) =
      some ⟨⟨p⟩, ⟨c⟩, if l.isEmpty then detectLanguage ⟨p⟩ else (⟨l⟩ : String)⟩ := by
  unfold emitPrimary
  rw [jsTrim_eq_self hpt, jsTrim_concat_nl hct]
  rw [if_neg (by simp [List.isEmpty_iff, hp, hc])]

theorem emitAlt_eq {p l c : List Char} (hp : p ≠ []) (hpt : noWsEnds p = true)
    (hdot : '.' ∈ p) (hc : c ≠ []) (hct : noWsEnds c = true) :
    emitAlt p l (c ++ ['\n']) =
      some ⟨⟨p⟩, ⟨c⟩, if l.isEmpty then detectLanguage ⟨p⟩ else (⟨l⟩ : String)⟩ := by
  unfold emitAlt
  rw [jsTrim_eq_self hpt, jsTrim_concat_nl hct]
  rw [if_neg (by simp [List.isEmpty_iff, hp, hc, hdot])]

theorem mkBlockL_ne_nil (p l c : List Char) (rest : List Char) :
    mkBlockL p l c ++ rest ≠ [] := by
  simp [mkBlockL]

theorem scanPrimary_block {p l c : List Char} (hp : p ≠ []) (hpt : noWsEnds p = true)
    (hpn : '\n' ∉ p) (hl : ∀ ch ∈ l, isWord ch = true)
    (hc : c ≠ []) (hct : noWsEnds c = true) (hcf : hasTriple c = false)
    (rest : List Char) :
    scanPrimary (mkBlockL p l c ++ rest) =
      ⟨⟨p⟩, ⟨c⟩, if l.isEmpty then detectLanguage ⟨p⟩ else (⟨l⟩ : String)⟩ ::
        scanPrimary rest :=
  scanPrimary_emit (mkBlockL_ne_nil p l c rest)
    (matchPrimary_block hp (noWsEnds_head hpt) hpn hl hcf rest)
    (emitPrimary_eq hp hpt hc hct)

theorem scanPrimary_blocks : ∀ (blocks : List BlockSpec) (fin : List Char),
    (∀ b ∈ blocks, PrimBlockOk b) → (∀ ch ∈ fin, ch ≠ 'F') →
    scanPrimary (blocksTextL blocks fin) =
      blocks.map fun b =>
        ⟨⟨b.path⟩, ⟨b.content⟩,
          if b.lang.isEmpty then detectLanguage ⟨b.path⟩ else (⟨b.lang⟩ : String)⟩ := by
  intro blocks
  induction blocks with
  | nil =>
    intro fin _ hfin
    rw [List.map_nil]
    exact scanPrimary_noF hfin
  | cons b bs ih =>
    intro fin hb hfin
    obtain ⟨h1, h2, h3, h4, h5, h6, h7, h8⟩ := hb b (by simp)
    show scanPrimary (b.sep ++ (mkBlockL b.path b.lang b.content ++ blocksTextL bs fin)) = _
    rw [scanPrimary_skip h8, scanPrimary_block h1 h2 h3 h4 h5 h6 h7,
      ih fin (fun b' hb' => hb b' (by simp [hb'])) hfin, List.map_cons]

theorem altTokenL_ne_nil {m : Nat} {p : List Char} (hp : p ≠ []) : altTokenL m p ≠ [] := by
  unfold altTokenL
  split
  · exact hp
  · simp

theorem altTokenL_noWsEnds {m : Nat} {p : List Char} (hp : p ≠ [])
    (hpt : noWsEnds p = true) : noWsEnds (altTokenL m p) = true := by
  unfold altTokenL
  split
  · exact hpt
  · case isFalse hm3 =>
    obtain ⟨k, hk⟩ : ∃ k, m - 3 = k + 1 := ⟨m - 4, by omega⟩
    rw [hk]
    apply noWsEnds_mk
    · rw [List.replicate_succ]
      simp [wsAt]
      decide
    · rw [getLastq_append (by simp)]
      have : (' ' :: p).getLast? = p.getLast? := by
        cases p with
        | nil => exact absurd rfl hp
        | cons p0 p' => exact List.getLast?_cons_cons
      rw [this]
      exact (noWsEnds_parts hpt).2

theorem altTokenL_dot {m : Nat} {p : List Char} (hdot : '.' ∈ p) :
    '.' ∈ altTokenL m p := by
  unfold altTokenL
  split
  · exact hdot
  · exact List.mem_append_right _ (List.mem_cons_of_mem _ hdot)

theorem altBlockL_ne_nil (m : Nat) (p l c : List Char) (rest : List Char) :
    altBlockL m p l c ++ rest ≠ [] := by
  simp [altBlockL]

theorem scanAlt_block {m : Nat} (hm : 2 ≤ m) {p l c : List Char} (hp : p ≠ [])
    (hpt : noWsEnds p = true) (hpn : '\n' ∉ p) (hpb : btk ∉ p) (hdot : '.' ∈ p)
    (hl : ∀ ch ∈ l, isWord ch = true)
    (hc : c ≠ []) (hct : noWsEnds c = true) (hcf : hasTriple c = false)
    (rest : List Char) :
    scanAlt (altBlockL m p l c ++ rest) =
      ⟨⟨altTokenL m p⟩, ⟨c⟩,
        if l.isEmpty then detectLanguage ⟨altTokenL m p⟩ else (⟨l⟩ : String)⟩ ::
        scanAlt rest :=
  scanAlt_emit (altBlockL_ne_nil m p l c rest)
    (matchAlt_block hm hp (noWsEnds_head hpt) hpn hpb hl hcf rest)
    (emitAlt_eq (altTokenL_ne_nil hp) (altTokenL_noWsEnds hp hpt) (altTokenL_dot hdot)
      hc hct)

/-! ### Parse-level helpers -/

theorem parse_mk (cs : List Char) :
    parseFilesFromResponse ⟨cs⟩ =
      if (scanPrimary cs).isEmpty then scanAlt cs else scanPrimary cs := rfl

theorem parse_mem {s : String} {r : FileRec} (h : r ∈ parseFilesFromResponse s) :
    r ∈ scanPrimary s.data ∨ (scanPrimary s.data = [] ∧ r ∈ scanAlt s.data) := by
  unfold parseFilesFromResponse at h
  simp only [] at h
  split at h
  · case isTrue he => exact Or.inr ⟨List.isEmpty_iff.mp he, h⟩
  · exact Or.inl h

theorem strMk_ne_empty {l : List Char} (h : l ≠ []) : (⟨l⟩ : String) ≠ "" := by
  intro hq
  exact h (congrArg String.data hq)

theorem emitPrimary_inv {p l cnt : List Char} {r : FileRec}
    (h : emitPrimary p l cnt = some r) :
    r.path ≠ "" ∧ r.content ≠ "" ∧ r.content = ⟨jsTrim cnt⟩ := by
  unfold emitPrimary at h
  simp only [] at h
  split at h
  · exact absurd h (by simp)
  · case isFalse hcond =>
    injection h with h'
    subst h'
    simp only [Bool.or_eq_true, not_or, Bool.not_eq_true, List.isEmpty_eq_false] at hcond
    exact ⟨strMk_ne_empty hcond.1, strMk_ne_empty hcond.2, rfl⟩

theorem emitAlt_inv {p l cnt : List Char} {r : FileRec}
    (h : emitAlt p l cnt = some r) :
    r.path ≠ "" ∧ r.content ≠ "" ∧ r.content = ⟨jsTrim cnt⟩ ∧ '.' ∈ r.path.data := by
  unfold emitAlt at h
  simp only [] at h
  split at h
  · exact absurd h (by simp)
  · case isFalse hcond =>
    injection h with h'
    subst h'
    simp only [Bool.or_eq_true, not_or, Bool.not_eq_true, List.isEmpty_eq_false] at hcond
    obtain ⟨⟨h1, h2⟩, h3⟩ := hcond
    have h4 : (jsTrim p).contains '.' = true := by simpa using h3
    refine ⟨strMk_ne_empty h1, strMk_ne_empty h2, rfl, ?_⟩
    rw [List.elem_iff] at h4
    exact h4

theorem altBlockL_noF {m : Nat} {p l c : List Char} (hpf : 'F' ∉ p) (hlf : 'F' ∉ l)
    (hcf2 : 'F' ∉ c) : ∀ ch ∈ altBlockL m p l c, ch ≠ 'F' := by
  intro ch hch he
  subst he
  revert hch
  have hbtk : ('F' : Char) ≠ btk := by decide
  simp [altBlockL, List.mem_append, List.mem_cons, List.mem_replicate, hpf, hlf, hcf2, hbtk]

/-! ### Claim theorems -/

/-- Claim C1: for every input made of `N` well-formed `FILE:`-blocks (distinct
non-empty one-line paths, word-character language tags, non-empty fence-free
contents), with no stray `F` in the text between blocks and no `F` or heading
marker after the last one, `parseFilesFromResponse` returns exactly `N`
records, in order, with the trimmed path, the trimmed body and the given
language tag. -/
theorem c1_wellformed_blocks_parse (blocks : List BlockSpec) (fin : List Char)
    (hwf : ∀ b ∈ blocks, PrimBlockOk b) (hlang : ∀ b ∈ blocks, b.lang ≠ [])
    (hdistinct : (blocks.map BlockSpec.path).Nodup)
    (hfin : ∀ ch ∈ fin, ch ≠ 'F' ∧ ch ≠ '#') :
    parseFilesFromResponse ⟨blocksTextL blocks fin⟩ =
      blocks.map fun b => ⟨⟨b.path⟩, ⟨b.content⟩, (⟨b.lang⟩ : String)⟩ := by
  have hprim := scanPrimary_blocks blocks fin hwf fun ch hch => (hfin ch hch).1
  have hmapeq : (blocks.map fun b =>
      (⟨⟨b.path⟩, ⟨b.content⟩,
        if b.lang.isEmpty then detectLanguage ⟨b.path⟩ else (⟨b.lang⟩ : String)⟩ : FileRec)) =
      blocks.map fun b => ⟨⟨b.path⟩, ⟨b.content⟩, (⟨b.lang⟩ : String)⟩ := by
    apply List.map_congr_left
    intro b hb
    rw [if_neg (by simpa [List.isEmpty_iff] using hlang b hb)]
  rw [parse_mk, hprim, hmapeq]
  cases blocks with
  | nil =>
    rw [List.map_nil]
    show (if True then scanAlt (blocksTextL [] fin) else []) = []
    rw [if_pos trivial]
    exact scanAlt_noHash fun ch hch => (hfin ch hch).2
  | cons b bs =>
    rw [List.map_cons]
    rfl

/-- Witness for C1 at one concrete block. -/
theorem c1_witness :
    parseFilesFromResponse "FILE: a.ts\n```ts\nlet x\n```" = [⟨"a.ts", "let x", "ts"⟩] := by
  have h := c1_wellformed_blocks_parse
    [⟨[], "a.ts".data, "ts".data, "let x".data⟩] []
    (by decide) (by decide) (by decide) (by decide)
  have e1 : (⟨blocksTextL [⟨[], "a.ts".data, "ts".data, "let x".data⟩] []⟩ : String) =
      "FILE: a.ts\n```ts\nlet x\n```" := by decide
  rw [e1] at h
  exact h.trans (by decide)

/-- Claim C2 as stated is false: the primary pattern has no line anchor, so an
occurrence of `FILE:` preceded by other characters on its line still produces
a record.  Counterexample: `FILE:` after the prose `see ` on the same line. -/
theorem c2_counterexample :
    parseFilesFromResponse "see FILE: a.ts\n```\nx\n```" =
      [⟨"a.ts", "x", "typescript"⟩] := by decide

/-- Claim C2 (amended): the primary pattern matches `FILE:` at any position,
not only at the start of a line; any prefix free of the letter `F` (in
particular, prose ending mid-line) may precede the marker and the block is
still extracted. -/
theorem c2_amended_no_line_anchor (pre p l c : List Char)
    (hpre : ∀ ch ∈ pre, ch ≠ 'F')
    (hp : p ≠ []) (hpt : noWsEnds p = true) (hpn : '\n' ∉ p)
    (hl : ∀ ch ∈ l, isWord ch = true) (hlne : l ≠ [])
    (hc : c ≠ []) (hct : noWsEnds c = true) (hcf : hasTriple c = false) :
    parseFilesFromResponse ⟨pre ++ mkBlockL p l c⟩ = [⟨⟨p⟩, ⟨c⟩, (⟨l⟩ : String)⟩] := by
  rw [parse_mk]
  have hscan : scanPrimary (pre ++ mkBlockL p l c) = [⟨⟨p⟩, ⟨c⟩, (⟨l⟩ : String)⟩] := by
    rw [scanPrimary_skip hpre]
    have hb := scanPrimary_block hp hpt hpn hl hc hct hcf []
    rw [List.append_nil] at hb
    rw [hb, if_neg (by simpa [List.isEmpty_iff] using hlne)]
    rfl
  rw [hscan]
  rfl

/-- Witness for the amended C2 at a concrete mid-line marker. -/
theorem c2_witness :
    parseFilesFromResponse "xy FILE: b.py\n```py\nprint\n```" =
      [⟨"b.py", "print", "py"⟩] := by
  have h := c2_amended_no_line_anchor ("xy ".data) ("b.py".data) ("py".data) ("print".data)
    (by decide) (by decide) (by decide) (by decide) (by decide) (by decide)
    (by decide) (by decide) (by decide)
  have e1 : (⟨"xy ".data ++ mkBlockL ("b.py".data) ("py".data) ("print".data)⟩ : String) =
      "xy FILE: b.py\n```py\nprint\n```" := by decide
  rw [e1] at h
  exact h.trans (by decide)

/-- Claim C3 as stated is false: the fallback pattern accepts a heading with
four markers (the alternation consumes three of them and the fourth becomes
part of the path token), so such a block is emitted rather than rejected. -/
theorem c3_counterexample :
    parseFilesFromResponse "#### f.ts\n```\nx\n```" =
      [⟨"# f.ts", "x", "typescript"⟩] := by decide

/-- Claim C3 (amended): the fallback pattern accepts a heading line beginning
with two or more markers; with two or three markers the path token is the
heading text, and with four or more the markers beyond the three consumed by
the pattern are absorbed into the path token. -/
theorem c3_amended_heading_markers (m : Nat) (hm : 2 ≤ m) (p l c : List Char)
    (hp : p ≠ []) (hpt : noWsEnds p = true) (hpn : '\n' ∉ p) (hpb : btk ∉ p)
    (hpf : 'F' ∉ p) (hdot : '.' ∈ p)
    (hl : ∀ ch ∈ l, isWord ch = true) (hlf : 'F' ∉ l)
    (hc : c ≠ []) (hct : noWsEnds c = true) (hcf : hasTriple c = false) (hcF : 'F' ∉ c) :
    parseFilesFromResponse ⟨altBlockL m p l c⟩ =
      [⟨⟨altTokenL m p⟩, ⟨c⟩,
        if l.isEmpty then detectLanguage ⟨altTokenL m p⟩ else (⟨l⟩ : String)⟩] := by
  rw [parse_mk]
  rw [scanPrimary_noF (altBlockL_noF hpf hlf hcF)]
  show (if True then scanAlt (altBlockL m p l c) else []) = _
  rw [if_pos trivial]
  have hb := scanAlt_block hm hp hpt hpn hpb hdot hl hc hct hcf []
  rw [List.append_nil] at hb
  rw [hb]
  rfl

/-- Witness for the amended C3 at a five-marker heading. -/
theorem c3_witness :
    parseFilesFromResponse "##### five.ts\n```\nx\n```" =
      [⟨"## five.ts", "x", "typescript"⟩] := by
  have h := c3_amended_heading_markers 5 (by decide) ("five.ts".data) [] ("x".data)
    (by decide) (by decide) (by decide) (by decide) (by decide) (by decide)
    (by decide) (by decide) (by decide) (by decide) (by decide) (by decide)
  have e1 : (⟨altBlockL 5 ("five.ts".data) [] ("x".data)⟩ : String) =
      "##### five.ts\n```\nx\n```" := by decide
  rw [e1] at h
  exact h.trans (by decide)

/-- Claim C4: the fallback is used exactly when the primary phase emits no
record: if the primary loop produced at least one record the result is the
primary records only, and if it produced none the result is exactly what the
fallback pattern produces. -/
theorem c4_fallback_iff_primary_empty (s : String) :
    (scanPrimary s.data ≠ [] → parseFilesFromResponse s = scanPrimary s.data) ∧
    (scanPrimary s.data = [] → parseFilesFromResponse s = scanAlt s.data) := by
  unfold parseFilesFromResponse
  simp only []
  constructor
  · intro h
    rw [if_neg (by simpa [List.isEmpty_iff] using h)]
  · intro h
    rw [if_pos (by simpa [List.isEmpty_iff] using h)]

/-- Witness for C4 at concrete inputs on both sides of the branch. -/
theorem c4_witness :
    parseFilesFromResponse "" = scanAlt ("" : String).data ∧
    parseFilesFromResponse "FILE: a.md\n```\nhi\n```" =
      scanPrimary ("FILE: a.md\n```\nhi\n```" : String).data :=
  ⟨(c4_fallback_iff_primary_empty "").2 (by decide),
    (c4_fallback_iff_primary_empty "FILE: a.md\n```\nhi\n```").1 (by decide)⟩

/-- Claim C5: when the fallback phase runs (the primary phase emitted
nothing), every emitted record's path contains a dot, so a heading block
whose path token has no dot is never emitted; conversely a well-formed
heading block whose token contains a dot and whose content is non-empty is
emitted. -/
theorem c5_fallback_requires_dot :
    (∀ (s : String) (r : FileRec), r ∈ parseFilesFromResponse s →
      scanPrimary s.data = [] → '.' ∈ r.path.data) ∧
    (∀ p l c : List Char, AltBlockOk p l c →
      parseFilesFromResponse ⟨altBlockL 2 p l c⟩ =
        [⟨⟨p⟩, ⟨c⟩, if l.isEmpty then detectLanguage ⟨p⟩ else (⟨l⟩ : String)⟩]) := by
  constructor
  · intro s r hmem hempty
    rcases parse_mem hmem with hpm | ⟨_, ham⟩
    · rw [hempty] at hpm
      simp at hpm
    · obtain ⟨cs', p, l, cnt, rest, _, hemit⟩ :=
        scanLoop_mem (show r ∈ scanLoop matchAlt emitAlt s.data.length s.data from ham)
      exact (emitAlt_inv hemit).2.2.2
  · intro p l c hok
    obtain ⟨h1, h2, h3, h4, h5, h6, h7, h8, h9, h10, h11, h12⟩ := hok
    rw [parse_mk]
    rw [scanPrimary_noF (altBlockL_noF h5 h8 h12)]
    show (if True then scanAlt (altBlockL 2 p l c) else []) = _
    rw [if_pos trivial]
    have hb := scanAlt_block (m := 2) (by decide) h1 h2 h3 h4 h6 h7 h9 h10 h11 []
    rw [List.append_nil] at hb
    rw [hb]
    rfl

/-- Witness for C5: a fallback record's path has a dot, and a dotted heading
block is emitted. -/
theorem c5_witness :
    ('.' ∈ ("a.ts" : String).data) ∧
    parseFilesFromResponse "## b.js\n```\nlet y\n```" = [⟨"b.js", "let y", "javascript"⟩] := by
  constructor
  · exact c5_fallback_requires_dot.1 "## a.ts\n```\nx\n```"
      ⟨"a.ts", "x", "typescript"⟩ (by decide) (by decide)
  · have h := c5_fallback_requires_dot.2 ("b.js".data) [] ("let y".data) (by decide)
    have e1 : (⟨altBlockL 2 ("b.js".data) [] ("let y".data)⟩ : String) =
        "## b.js\n```\nlet y\n```" := by decide
    rw [e1] at h
    exact h.trans (by decide)

/-- Claim C6: a block whose fence carries no language tag gets
`detectLanguage` of its trimmed path, and `detectLanguage` follows the fixed
lowercased-extension table with `plaintext` for absent or unknown
extensions. -/
theorem c6_language_fallback_table :
    (∀ p c : List Char, p ≠ [] → noWsEnds p = true → '\n' ∉ p →
      c ≠ [] → noWsEnds c = true → hasTriple c = false →
      parseFilesFromResponse ⟨mkBlockL p [] c⟩ = [⟨⟨p⟩, ⟨c⟩, detectLanguage ⟨p⟩⟩]) ∧
    (detectLanguage "a.ts" = "typescript" ∧ detectLanguage "b.TS" = "typescript" ∧
     detectLanguage "a.tsx" = "tsx" ∧ detectLanguage "a.js" = "javascript" ∧
     detectLanguage "a.jsx" = "jsx" ∧ detectLanguage "a.py" = "python" ∧
     detectLanguage "a.json" = "json" ∧ detectLanguage "a.html" = "html" ∧
     detectLanguage "a.css" = "css" ∧ detectLanguage "a.md" = "markdown" ∧
     detectLanguage "a.yml" = "yaml" ∧ detectLanguage "a.yaml" = "yaml" ∧
     detectLanguage "a.sql" = "sql" ∧ detectLanguage "a.env" = "plaintext" ∧
     detectLanguage "a.gitignore" = "plaintext" ∧ detectLanguage "noext" = "plaintext" ∧
     detectLanguage "a.rs" = "plaintext" ∧ detectLanguage ".gitignore" = "plaintext" ∧
     detectLanguage "dir/file." = "plaintext") := by
  constructor
  · intro p c hp hpt hpn hc hct hcf
    rw [parse_mk]
    have hb := scanPrimary_block hp hpt hpn (l := []) (by simp) hc hct hcf []
    rw [List.append_nil] at hb
    rw [hb]
    rfl
  · decide

/-- Witness for C6 at a concrete untagged block. -/
theorem c6_witness :
    parseFilesFromResponse "FILE: w.css\n```\nbody\n```" = [⟨"w.css", "body", "css"⟩] := by
  have h := c6_language_fallback_table.1 ("w.css".data) ("body".data)
    (by decide) (by decide) (by decide) (by decide) (by decide) (by decide)
  have e1 : (⟨mkBlockL ("w.css".data) [] ("body".data)⟩ : String) =
      "FILE: w.css\n```\nbody\n```" := by decide
  rw [e1] at h
  exact h.trans (by decide)

/-- Claim C7: every record returned by `parseFilesFromResponse` has a
non-empty path and a non-empty content, and a candidate match whose trimmed
content is empty is dropped silently (the result is just empty, no error). -/
theorem c7_nonempty_path_content :
    (∀ (s : String) (r : FileRec), r ∈ parseFilesFromResponse s →
      r.path ≠ "" ∧ r.content ≠ "") ∧
    parseFilesFromResponse "FILE: a.ts\n```\n   \n```" = [] := by
  constructor
  · intro s r hmem
    rcases parse_mem hmem with hpm | ⟨_, ham⟩
    · obtain ⟨cs', p, l, cnt, rest, _, hemit⟩ :=
        scanLoop_mem (show r ∈ scanLoop matchPrimary emitPrimary s.data.length s.data from hpm)
      exact ⟨(emitPrimary_inv hemit).1, (emitPrimary_inv hemit).2.1⟩
    · obtain ⟨cs', p, l, cnt, rest, _, hemit⟩ :=
        scanLoop_mem (show r ∈ scanLoop matchAlt emitAlt s.data.length s.data from ham)
      exact ⟨(emitAlt_inv hemit).1, (emitAlt_inv hemit).2.1⟩
  · decide

/-- Witness for C7 at a concrete record. -/
theorem c7_witness :
    (⟨"a.ts", "x", "typescript"⟩ : FileRec).path ≠ "" ∧
    (⟨"a.ts", "x", "typescript"⟩ : FileRec).content ≠ "" :=
  c7_nonempty_path_content.1 "FILE: a.ts\n```\nx\n```"
    ⟨"a.ts", "x", "typescript"⟩ (by decide)

/-- Claim C8: the parser is a total function; the empty string, an
unterminated fence and pure prose (no `F`, no heading marker) all yield the
empty list rather than an error. -/
theorem c8_total_no_blocks :
    parseFilesFromResponse "" = [] ∧
    parseFilesFromResponse "FILE: a.ts\n```ts\nconst x = 1" = [] ∧
    (∀ s : String, (∀ ch ∈ s.data, ch ≠ 'F' ∧ ch ≠ '#') →
      parseFilesFromResponse s = []) := by
  refine ⟨by decide, by decide, ?_⟩
  intro s h
  unfold parseFilesFromResponse
  simp only []
  rw [scanPrimary_noF fun ch hch => (h ch hch).1,
    scanAlt_noHash fun ch hch => (h ch hch).2]
  rfl

/-- Witness for C8 on prose. -/
theorem c8_witness : parseFilesFromResponse "just prose." = [] :=
  c8_total_no_blocks.2.2 "just prose." (by decide)

/-- Claim C9: packaging an extracted record as a ZIP entry uses the path with
leading slashes stripped as the entry name and the content as the entry data,
and reading that entry back returns the content unchanged; a record with an
empty path or content is not added. -/
theorem c9_zip_roundtrip :
    (∀ r : FileRec, r.path ≠ "" → r.content ≠ "" →
      downloadProjectEntries [r] = [⟨stripLeadingSlashes r.path, r.content⟩] ∧
      readEntry (downloadProjectEntries [r]) (stripLeadingSlashes r.path) =
        some r.content) ∧
    (∀ r : FileRec, r.path = "" ∨ r.content = "" → downloadProjectEntries [r] = []) := by
  constructor
  · intro r hp hc
    have he : downloadProjectEntries [r] = [⟨stripLeadingSlashes r.path, r.content⟩] := by
      unfold downloadProjectEntries
      simp [hp, hc]
    refine ⟨he, ?_⟩
    rw [he]
    unfold readEntry
    simp
  · intro r hor
    unfold downloadProjectEntries
    rcases hor with h | h <;> simp [h]

/-- Witness for C9 at concrete records. -/
theorem c9_witness :
    downloadProjectEntries [⟨"/a.ts", "x", "typescript"⟩] = [⟨"a.ts", "x"⟩] ∧
    readEntry (downloadProjectEntries [⟨"/a.ts", "x", "typescript"⟩]) "a.ts" = some "x" ∧
    downloadProjectEntries [⟨"", "x", "t"⟩] = [] := by
  have h1 := c9_zip_roundtrip.1 ⟨"/a.ts", "x", "typescript"⟩ (by decide) (by decide)
  have h2 := c9_zip_roundtrip.2 ⟨"", "x", "t"⟩ (Or.inl rfl)
  obtain ⟨ha, hb⟩ := h1
  have e1 : stripLeadingSlashes "/a.ts" = "a.ts" := by decide
  rw [e1] at ha hb
  exact ⟨ha, hb, h2⟩

/-- Claim C10: the content of every record emitted by either phase never
contains three consecutive backticks: the lazy body match stops at the first
closing fence, and trimming cannot introduce one. -/
theorem c10_content_fence_free :
    ∀ (s : String) (r : FileRec), r ∈ parseFilesFromResponse s →
      hasTriple r.content.data = false := by
  intro s r hmem
  rcases parse_mem hmem with hpm | ⟨_, ham⟩
  · obtain ⟨cs', p, l, cnt, rest, hstep, hemit⟩ :=
      scanLoop_mem (show r ∈ scanLoop matchPrimary emitPrimary s.data.length s.data from hpm)
    have hfree := (matchPrimary_inv hstep).1
    have hcontent := (emitPrimary_inv hemit).2.2
    rw [hcontent]
    exact jsTrim_fenceFree hfree
  · obtain ⟨cs', p, l, cnt, rest, hstep, hemit⟩ :=
      scanLoop_mem (show r ∈ scanLoop matchAlt emitAlt s.data.length s.data from ham)
    have hfree := (matchAlt_inv hstep).1
    have hcontent := (emitAlt_inv hemit).2.2.1
    rw [hcontent]
    exact jsTrim_fenceFree hfree

/-- Witness for C10 on a block whose body is truncated at an inner fence. -/
theorem c10_witness :
    hasTriple ((⟨"a.ts", "foo", "typescript"⟩ : FileRec)).content.data = false :=
  c10_content_fence_free "FILE: a.ts\n```\nfoo\n```bar"
    ⟨"a.ts", "foo", "typescript"⟩ (by decide)
